import Mathlib

/-!
Verification development for the Kroger price-enrichment script
(`KrogerMatch.py`).  Python strings are modelled as `List Char`,
Python floats that carry prices or similarity ratios as `ℚ`
(exact rational arithmetic; the float literals of the script, 0.2
and 0.06, are exactly the rationals 1/5 and 3/50 for the purposes
of every comparison the script performs on realistic input sizes),
and fallible Python code as `Except Unit`.
-/

/-! ## Python string primitives

Shallow embeddings of the Python `str` operations the script uses:
`str.lower`, `str.replace`, `str.split(sep)[0]`, and the `str(...)`
coercion applied to the pandas cell values `row['Brand']` /
`row['Product_Name']`.  `str.lower` is modelled on the ASCII range,
which covers the catalog data the script processes. -/

/-- ASCII model of Python `str.lower` on a single character. -/
def pyCharLower (c : Char) : Char :=
  if 'A' ≤ c ∧ c ≤ 'Z' then Char.ofNat (c.toNat + 32) else c

/-- Python `s.lower()`. -/
def pyLower (s : List Char) : List Char := s.map pyCharLower

/-- Python `s.replace(pat, repl)` for a non-empty pattern: replace
non-overlapping occurrences left to right.  (The script only calls it
with the one-character patterns `'"'` and `','` and empty replacement.) -/
def pyReplace (pat repl : List Char) : List Char → List Char
  | [] => []
  | c :: rest =>
    if h : pat ≠ [] ∧ pat.isPrefixOf (c :: rest) then
      repl ++ pyReplace pat repl ((c :: rest).drop pat.length)
    else
      c :: pyReplace pat repl rest
termination_by s => s.length
decreasing_by
  · have hlen : 0 < pat.length := List.length_pos.mpr h.1
    simp only [List.length_drop, List.length_cons]
    omega
  · simp only [List.length_cons]
    omega

/-- Python `s.split(sep)[0]` for a non-empty separator: the text before
the first occurrence of `sep` (the whole string if `sep` does not occur). -/
def pySplitFirst (sep : List Char) : List Char → List Char
  | [] => []
  | c :: rest =>
    if sep.isPrefixOf (c :: rest) then [] else c :: pySplitFirst sep rest

/-- A pandas cell value as seen by `search_product`: a string, the float
`NaN` that pandas uses for a missing value, Python `None`, or an int. -/
inductive PyVal where
  | pstr (s : List Char)
  | pfloatNaN
  | pnone
  | pint (n : ℤ)
deriving DecidableEq

/-- Python `str(v)`: `str(float('nan')) = "nan"`, `str(None) = "None"`. -/
def pyStr : PyVal → List Char
  | .pstr s => s
  | .pfloatNaN => "nan".data
  | .pnone => "None".data
  | .pint n => (toString n).data

/-! ## difflib.SequenceMatcher, as instantiated by the script

`search_product` computes
`difflib.SequenceMatcher(None, search_term.lower(), found_name.lower()).ratio()`.
This section models CPython's `difflib.SequenceMatcher` for exactly that
instantiation: `isjunk = None` (so the junk set `bjunk` is empty) and
`autojunk = True` (so, when `len(b) >= 200`, "popular" elements — those
occurring more than `len(b) // 100 + 1` times in `b` — are purged from
the index `b2j`).  `ratio()` returns `2*M / (len(a)+len(b))` where `M`
is the total size of the blocks found by `get_matching_blocks`; it is
modelled in `ℚ`. -/

/-- Autojunk popularity test from `SequenceMatcher.__chain_b`: with
`autojunk` on and `len(b) >= 200`, an element is popular when it occurs
more than `len(b) // 100 + 1` times in `b`. -/
def popularB (b : List Char) (c : Char) : Bool :=
  200 ≤ b.length && (b.length / 100 + 1) < (b.count c)

/-- The index `b2j` built by `SequenceMatcher.__chain_b`: for each
character its ascending list of positions in `b`, with popular
characters purged (and `bjunk` empty since `isjunk` is `None`). -/
def mkB2J (b : List Char) (c : Char) : List ℕ :=
  if popularB b c then [] else (List.range b.length).filter (fun j => b.getD j ' ' == c)

/-- `k = j2len.get(j-1, 0) + 1` of the inner loop of
`find_longest_match` (dictionaries with default 0 are modelled as
functions; Python's lookup of `-1` at `j = 0` finds nothing). -/
def kval (j2len : ℕ → ℕ) (j : ℕ) : ℕ :=
  (if j = 0 then 0 else j2len (j - 1)) + 1

/-- The `if k > bestsize: besti, bestj, bestsize = i-k+1, j-k+1, k`
update of `find_longest_match`. -/
def bestUpd (i : ℕ) (j2len : ℕ → ℕ) (best : ℕ × ℕ × ℕ) (j : ℕ) : ℕ × ℕ × ℕ :=
  if best.2.2 < kval j2len j then
    (i + 1 - kval j2len j, j + 1 - kval j2len j, kval j2len j)
  else best

/-- One pass of the inner `for j in b2j.get(a[i], nothing)` loop of
`find_longest_match`: `j2len` is the dictionary from the previous row
(with default 0), `newj2len` the one being built, and `best` the current
`(besti, bestj, bestsize)`.  `j < blo` is `continue`, `j >= bhi` is
`break`; otherwise `k = newj2len[j] = j2len.get(j-1, 0) + 1` and `best`
is updated when `k > bestsize`. -/
def innerLoop (blo bhi i : ℕ) (j2len : ℕ → ℕ) :
    List ℕ → (ℕ → ℕ) → ℕ × ℕ × ℕ → ((ℕ → ℕ) × (ℕ × ℕ × ℕ))
  | [], new, best => (new, best)
  | j :: js, new, best =>
    if j < blo then innerLoop blo bhi i j2len js new best
    else if bhi ≤ j then (new, best)
    else
      innerLoop blo bhi i j2len js
        (fun x => if x = j then kval j2len j else new x) (bestUpd i j2len best j)

/-- The outer `for i in range(alo, ahi)` loop of `find_longest_match`:
each row starts a fresh `newj2len` and threads `best` through. -/
def outerLoop (a : List Char) (b2j : Char → List ℕ) (blo bhi : ℕ) :
    List ℕ → (ℕ → ℕ) → ℕ × ℕ × ℕ → ℕ × ℕ × ℕ
  | [], _, best => best
  | i :: is, j2len, best =>
    let r := innerLoop blo bhi i j2len (b2j (a.getD i ' ')) (fun _ => 0) best
    outerLoop a b2j blo bhi is r.1 r.2

/-- First extension loop of `find_longest_match`: grow the block
backwards over matching non-junk elements. -/
def extendBackNonJunk (a b : List Char) (junk : Char → Bool) (alo blo : ℕ) :
    ℕ × ℕ × ℕ → ℕ × ℕ × ℕ
  | (besti, bestj, bestsize) =>
    if h : alo < besti ∧ blo < bestj ∧ junk (b.getD (bestj - 1) ' ') = false ∧
        a.getD (besti - 1) ' ' = b.getD (bestj - 1) ' ' then
      extendBackNonJunk a b junk alo blo (besti - 1, bestj - 1, bestsize + 1)
    else
      (besti, bestj, bestsize)
termination_by p => p.1
decreasing_by omega

/-- Second extension loop: grow the block forwards over matching
non-junk elements. -/
def extendFwdNonJunk (a b : List Char) (junk : Char → Bool) (ahi bhi : ℕ) :
    ℕ × ℕ × ℕ → ℕ × ℕ × ℕ
  | (besti, bestj, bestsize) =>
    if h : besti + bestsize < ahi ∧ bestj + bestsize < bhi ∧
        junk (b.getD (bestj + bestsize) ' ') = false ∧
        a.getD (besti + bestsize) ' ' = b.getD (bestj + bestsize) ' ' then
      extendFwdNonJunk a b junk ahi bhi (besti, bestj, bestsize + 1)
    else
      (besti, bestj, bestsize)
termination_by p => ahi - (p.1 + p.2.2)
decreasing_by omega

/-- Third extension loop: grow backwards over matching junk elements. -/
def extendBackJunk (a b : List Char) (junk : Char → Bool) (alo blo : ℕ) :
    ℕ × ℕ × ℕ → ℕ × ℕ × ℕ
  | (besti, bestj, bestsize) =>
    if h : alo < besti ∧ blo < bestj ∧ junk (b.getD (bestj - 1) ' ') = true ∧
        a.getD (besti - 1) ' ' = b.getD (bestj - 1) ' ' then
      extendBackJunk a b junk alo blo (besti - 1, bestj - 1, bestsize + 1)
    else
      (besti, bestj, bestsize)
termination_by p => p.1
decreasing_by omega

/-- Fourth extension loop: grow forwards over matching junk elements. -/
def extendFwdJunk (a b : List Char) (junk : Char → Bool) (ahi bhi : ℕ) :
    ℕ × ℕ × ℕ → ℕ × ℕ × ℕ
  | (besti, bestj, bestsize) =>
    if h : besti + bestsize < ahi ∧ bestj + bestsize < bhi ∧
        junk (b.getD (bestj + bestsize) ' ') = true ∧
        a.getD (besti + bestsize) ' ' = b.getD (bestj + bestsize) ' ' then
      extendFwdJunk a b junk ahi bhi (besti, bestj, bestsize + 1)
    else
      (besti, bestj, bestsize)
termination_by p => ahi - (p.1 + p.2.2)
decreasing_by omega

/-- `SequenceMatcher.find_longest_match(alo, ahi, blo, bhi)`: the
dictionary scan followed by the four extension loops.  `junk` is the
`bjunk` membership test — constantly `false` for `SequenceMatcher(None, …)`. -/
def findLongestMatch (a b : List Char) (b2j : Char → List ℕ) (junk : Char → Bool)
    (alo ahi blo bhi : ℕ) : ℕ × ℕ × ℕ :=
  let best := outerLoop a b2j blo bhi (List.range' alo (ahi - alo)) (fun _ => 0) (alo, blo, 0)
  let best := extendBackNonJunk a b junk alo blo best
  let best := extendFwdNonJunk a b junk ahi bhi best
  let best := extendBackJunk a b junk alo blo best
  extendFwdJunk a b junk ahi bhi best

/-- Total size of the blocks produced by `SequenceMatcher.get_matching_blocks`,
the only datum of that routine `ratio()` consumes.  `get_matching_blocks`
splits `[alo,ahi) × [blo,bhi)` at the longest match and recurses on both
sides (its worklist order and its final adjacent-block collapse permute
and merge blocks but leave the total size unchanged).  `fuel` bounds the
recursion depth; every split strictly shrinks `(ahi-alo)+(bhi-blo)`, so
`la + lb + 1` fuel is always enough. -/
def blocksSizeSum (a b : List Char) (b2j : Char → List ℕ) (junk : Char → Bool) :
    ℕ → ℕ → ℕ → ℕ → ℕ → ℕ
  | 0, _, _, _, _ => 0
  | fuel + 1, alo, ahi, blo, bhi =>
    let m := findLongestMatch a b b2j junk alo ahi blo bhi
    let i := m.1
    let j := m.2.1
    let k := m.2.2
    if k = 0 then 0
    else
      (if alo < i ∧ blo < j then blocksSizeSum a b b2j junk fuel alo i blo j else 0)
      + k
      + (if i + k < ahi ∧ j + k < bhi then blocksSizeSum a b b2j junk fuel (i + k) ahi (j + k) bhi else 0)

/-- `difflib.SequenceMatcher(None, a, b).ratio()`, in `ℚ`:
`2*M / (len(a)+len(b))`, and `1.0` when both strings are empty. -/
def pyRatio (a b : List Char) : ℚ :=
  let la := a.length
  let lb := b.length
  let m := blocksSizeSum a b (mkB2J b) (fun _ => false) (la + lb + 1) 0 la 0 lb
  if la + lb = 0 then 1 else (2 * m : ℚ) / (la + lb : ℚ)

/-! ## search_product (`KrogerMatch.py`, lines 61–106)

The query construction, the JSON price/description extraction and the
acceptance gate.  The HTTP exchange is modelled by an `ApiResponse`
value: what `session.get` produced for this row — a raised transport
exception (including `Timeout`), or a status code together with the
parsed JSON body (`none` when `r.json()` itself raises).  The body is
typed with `Option` fields standing for present/absent dictionary keys,
exactly the distinctions `product.get`/`items.get`/`prices.get` make. -/

/-- `items[0]['price']`: the `promo`/`regular` keys, `none` = key absent. -/
structure Prices where
  promo : Option ℚ
  regular : Option ℚ
deriving DecidableEq

/-- `prices.get('promo', prices.get('regular', 0))`: the value under
`'promo'` whenever that key is present (whatever it is, including 0),
else the value under `'regular'`, else `0`. -/
def extractPrice (p : Prices) : ℚ :=
  match p.promo with
  | some v => v
  | none => match p.regular with
    | some v => v
    | none => 0

/-- One element of the product's `items` array. -/
structure Item where
  price : Option Prices
deriving DecidableEq

/-- One element of the response's `data` array. -/
structure ProductJ where
  description : Option (List Char)
  items : Option (List Item)
deriving DecidableEq

/-- The parsed JSON body: `r.json().get('data')`. -/
structure JsonBody where
  data : Option (List ProductJ)
deriving DecidableEq

/-- What the HTTP call for one row produced. -/
inductive ApiResponse where
  | transportError
  | httpResponse (status : ℕ) (body : Option JsonBody)
deriving DecidableEq

/-- The "unknown brand" sentinel list of line 70. -/
def sentinelBrands : List (List Char) :=
  ["nan".data, "unknown".data, "generic".data, "none".data]

/-- Line 66: `str(name).replace('"', '').replace(',', '').split(' - ')[0]`. -/
def cleanNameOf (name : PyVal) : List Char :=
  pySplitFirst " - ".data (pyReplace ",".data [] (pyReplace "\"".data [] (pyStr name)))

/-- Lines 67–73: the query term sent to the API. -/
def searchTermOf (brand name : PyVal) : List Char :=
  let clean_brand := pyStr brand
  if pyLower clean_brand ∈ sentinelBrands then cleanNameOf name
  else clean_brand ++ " ".data ++ cleanNameOf name

/-- `round(match_score * 100, 1)` (Python rounds the float; exact
decimal-half ties, where Python would round half to even, are not exactly
representable by the binary floats `ratio()` produces). -/
def roundScore (r : ℚ) : ℚ := (round (r * 1000) : ℚ) / 10

/-- The `{}` default of `items.get('price', {})`. -/
def defaultPrices : Prices := ⟨none, none⟩

/-- The body of the `try:` block of lines 81–102, with `.error ()` for a
raised exception: a transport error or timeout from `session.get`, a
`r.json()` parse failure, or the `IndexError` of `product.get('items', [{}])[0]`
on a present-but-empty `items` array.  `.ok` carries the returned triple
`(price, found_name, score)`, with the fall-through `return None, None, 0`
for a non-200 status, a missing/empty `data` array, or a failed gate. -/
def searchProductBody (search_term : List Char) (resp : ApiResponse) :
    Except Unit (Option ℚ × Option (List Char) × ℚ) :=
  match resp with
  | .transportError => .error ()
  | .httpResponse status body =>
    if status = 200 then
      match body with
      | none => .error ()
      | some b =>
        match b.data with
        | some (product :: _) =>
          let found_name := product.description.getD "Unknown".data
          let match_score := pyRatio (pyLower search_term) (pyLower found_name)
          match (match product.items with
                 | none => Except.ok (⟨none⟩ : Item)
                 | some [] => Except.error ()
                 | some (it :: _) => Except.ok it) with
          | .error e => .error e
          | .ok item =>
            let prices := item.price.getD defaultPrices
            let price := extractPrice prices
            if 0 < price ∧ 1/5 < match_score then
              .ok (some price, some found_name, roundScore match_score)
            else .ok (none, none, 0)
        | _ => .ok (none, none, 0)
    else .ok (none, none, 0)

/-- `search_product`: the `try`/`except` wrapper — any raised exception
falls through to `return None, None, 0` (line 106). -/
def search_product (brand name : PyVal) (resp : ApiResponse) :
    Option ℚ × Option (List Char) × ℚ :=
  match searchProductBody (searchTermOf brand name) resp with
  | .error _ => (none, none, 0)
  | .ok v => v

/-- The candidate the script would score: the first element of the `data`
array of a status-200, well-formed response. -/
def firstCandidate : ApiResponse → Option ProductJ
  | .transportError => none
  | .httpResponse status body =>
    if status = 200 then
      match body with
      | none => none
      | some b =>
        match b.data with
        | some (p :: _) => some p
        | _ => none
    else none

/-- `product.get('description', 'Unknown')`. -/
def candDescr (p : ProductJ) : List Char := p.description.getD "Unknown".data

/-- The price `search_product` extracts from a candidate, `none` when the
extraction itself raises (`items` present but empty). -/
def candPrice (p : ProductJ) : Option ℚ :=
  match p.items with
  | none => some (extractPrice defaultPrices)
  | some [] => none
  | some (it :: _) => some (extractPrice (it.price.getD defaultPrices))

/-- The similarity ratio of line 92 for a given query term and candidate. -/
def simScore (term : List Char) (p : ProductJ) : ℚ :=
  pyRatio (pyLower term) (pyLower (candDescr p))

/-! ## The enrichment loop (`KrogerMatch.py`, lines 134–173) -/

/-- One catalog row, as the loop reads it: `row['Brand']` and
`row['Product_Name']` (the passthrough fields ride along untouched and
are represented by the row value itself). -/
structure CatalogRow where
  brand : PyVal
  productName : PyVal
deriving DecidableEq

/-- A row accepted into `results`: the source row plus the four fields
appended on lines 145–148 (`Kroger_Name` keeps the `Option` the search
returned, since line 144 only tests `price`). -/
structure EnrichedRow where
  row : CatalogRow
  price : ℚ
  krogerName : Option (List Char)
  matchScore : ℚ
deriving DecidableEq

/-- The outcome of line 142 for row `i`, under a fixed assignment
`oracle` of HTTP responses to row indices (the script performs exactly
one request per row). -/
def rowOutcome (oracle : ℕ → ApiResponse) (i : ℕ) (r : CatalogRow) :
    Option ℚ × Option (List Char) × ℚ :=
  search_product r.brand r.productName (oracle i)

/-- Lines 144–149: `if price:` (truthiness: a present, nonzero float)
guards the construction and append of the enriched row. -/
def enrichStep (oracle : ℕ → ApiResponse) (i : ℕ) (r : CatalogRow) :
    Option EnrichedRow :=
  let out := rowOutcome oracle i r
  match out.1 with
  | some price => if price ≠ 0 then some ⟨r, price, out.2.1, out.2.2⟩ else none
  | none => none

/-- One iteration's effect on the `results` accumulator. -/
def loopAppend (oracle : ℕ → ApiResponse) (acc : List (ℕ × EnrichedRow))
    (ir : ℕ × CatalogRow) : List (ℕ × EnrichedRow) :=
  match enrichStep oracle ir.1 ir.2 with
  | some e => acc ++ [(ir.1, e)]
  | none => acc

/-- The full uninterrupted loop: `results = []` then the `for` of line
138, iterating rows serially in catalog order. -/
def runLoop (rows : List CatalogRow) (oracle : ℕ → ApiResponse) :
    List (ℕ × EnrichedRow) :=
  rows.enum.foldl (loopAppend oracle) []

/-- The loop under a `KeyboardInterrupt` that arrives once `budget`
iterations have committed their append: the interrupt propagates out of
the iteration in flight (it is a `BaseException`, so the bare `except`
inside `search_product` does not catch it, and no fields of that row
have been appended), the `except KeyboardInterrupt` handler of line 154
stops the loop, and the accumulator is kept as is. -/
def runInterrupted (oracle : ℕ → ApiResponse) :
    List (ℕ × CatalogRow) → ℕ → List (ℕ × EnrichedRow) → List (ℕ × EnrichedRow)
  | _, 0, acc => acc
  | [], _ + 1, acc => acc
  | ir :: rest, budget + 1, acc => runInterrupted oracle rest budget (loopAppend oracle acc ir)

/-- The `results` list the save step sees when the run was interrupted
after `budget` committed iterations. -/
def interruptedResults (rows : List CatalogRow) (oracle : ℕ → ApiResponse)
    (budget : ℕ) : List (ℕ × EnrichedRow) :=
  runInterrupted oracle rows.enum budget []

/-! ## Observable run events (for the pacing and sequencing claims) -/

/-- The externally observable actions of `__main__`: the one auth call,
the one location call, the per-row product query, the accumulator
append, the `time.sleep` pacing delay (in milliseconds), and the final
CSV write. -/
inductive RunEvent where
  | authCall
  | locationCall
  | query (i : ℕ)
  | append (i : ℕ)
  | sleepMs (ms : ℕ)
  | writeOutput
deriving DecidableEq

/-- The events of one completed loop iteration, lines 142–152: the query,
the append when the outcome was accepted, then `time.sleep(0.06)` —
0.06 s = 60 ms — executed unconditionally. -/
def iterEvents (oracle : ℕ → ApiResponse) (ir : ℕ × CatalogRow) : List RunEvent :=
  [.query ir.1]
    ++ (match enrichStep oracle ir.1 ir.2 with
        | some _ => [.append ir.1]
        | none => [])
    ++ [.sleepMs 60]

/-- The event trace of the whole uninterrupted loop. -/
def loopTrace (rows : List CatalogRow) (oracle : ℕ → ApiResponse) : List RunEvent :=
  (rows.enum.map (iterEvents oracle)).flatten

/-- Python truthiness test applied to the auth/location results:
`if not token: exit()` / `if not location_id: exit()` fire on `None`
(and on an empty string). -/
def pyFalsy : Option (List Char) → Bool
  | none => true
  | some s => s.isEmpty

/-- The event trace of `__main__` from line 126 on: auth first
(line 126/127), then store resolution (line 130/131), each followed by
an `exit()` when falsy, then the per-row loop, then the save step
(lines 158–167) which writes only when `results` is non-empty. -/
def mainTrace (authRes locRes : Option (List Char)) (rows : List CatalogRow)
    (oracle : ℕ → ApiResponse) : List RunEvent :=
  [.authCall]
    ++ (if pyFalsy authRes then [] else
        [.locationCall]
          ++ (if pyFalsy locRes then [] else
              loopTrace rows oracle
                ++ (if runLoop rows oracle = [] then [] else [.writeOutput])))

/-! ## Output column assembly (`KrogerMatch.py`, lines 158–165) -/

/-- Line 162: the fixed leading output columns. -/
def outputCols : List (List Char) :=
  ["UPC".data, "Brand".data, "Product_Name".data, "Price".data,
   "Kroger_Name".data, "Match_Score".data, "Price_Source".data]

/-- The four columns appended to each accepted row (lines 145–148), in
assignment order. -/
def appendedCols : List (List Char) :=
  ["Price".data, "Kroger_Name".data, "Match_Score".data, "Price_Source".data]

/-- The columns of `pd.DataFrame(results)`: the input CSV's columns in
their original order followed by the four appended fields (pandas keeps
a Series' index order, and every accepted row appends the same four
fields in the same order after the input fields). -/
def frameCols (inputCols : List (List Char)) : List (List Char) :=
  inputCols ++ appendedCols

/-- Lines 164–165: `nutrition_cols = [c for c in final_df.columns if c not in cols]`
then `final_df[cols + nutrition_cols]`. -/
def finalCols (allCols : List (List Char)) : List (List Char) :=
  outputCols ++ allCols.filter (fun c => c ∉ outputCols)

/-- The column list of the CSV the save step writes: `none` when the
accumulator is empty (no output file, line 173). -/
def savedColumns (rows : List CatalogRow) (oracle : ℕ → ApiResponse)
    (inputCols : List (List Char)) : Option (List (List Char)) :=
  if runLoop rows oracle = [] then none else some (finalCols (frameCols inputCols))

/-! ## Helper lemmas: the shape of `search_product` -/

/-- `search_product` as a function of the candidate the response carries:
the rejected triple unless a candidate is present, its price extraction
does not raise, the price is positive and the similarity clears 0.2. -/
theorem search_product_eq (brand name : PyVal) (resp : ApiResponse) :
    search_product brand name resp =
      (match firstCandidate resp with
      | none => (none, none, 0)
      | some c =>
        match candPrice c with
        | none => (none, none, 0)
        | some p =>
          if 0 < p ∧ 1/5 < simScore (searchTermOf brand name) c then
            (some p, some (candDescr c), roundScore (simScore (searchTermOf brand name) c))
          else (none, none, 0)) := by
  rcases resp with _ | ⟨status, body⟩
  · rfl
  · by_cases hs : status = 200
    · subst hs
      rcases body with _ | ⟨b⟩
      · rfl
      · rcases b with ⟨d⟩
        rcases d with _ | ⟨l⟩
        · rfl
        · rcases l with _ | ⟨p, rest⟩
          · rfl
          · rcases hit : p.items with _ | ⟨its⟩
            · simp only [search_product, searchProductBody, firstCandidate, candPrice,
                simScore, candDescr, hit, if_true, reduceIte, Option.getD_none,
                ← apply_ite (Except.ok : (Option ℚ × Option (List Char) × ℚ) → Except Unit (Option ℚ × Option (List Char) × ℚ))]
            · rcases its with _ | ⟨it, more⟩
              · simp only [search_product, searchProductBody, firstCandidate, candPrice,
                  simScore, candDescr, hit, if_true, reduceIte]
              · simp only [search_product, searchProductBody, firstCandidate, candPrice,
                  simScore, candDescr, hit, if_true, reduceIte, Option.getD_none,
                  ← apply_ite (Except.ok : (Option ℚ × Option (List Char) × ℚ) → Except Unit (Option ℚ × Option (List Char) × ℚ))]
    · simp only [search_product, searchProductBody, firstCandidate, if_neg hs]

/-- `search_product` when the response carries no usable candidate. -/
theorem search_product_none (brand name : PyVal) (resp : ApiResponse)
    (h : firstCandidate resp = none) :
    search_product brand name resp = (none, none, 0) := by
  rw [search_product_eq, h]

/-- `search_product` when the response carries a candidate. -/
theorem search_product_some (brand name : PyVal) (resp : ApiResponse) (c : ProductJ)
    (h : firstCandidate resp = some c) :
    search_product brand name resp =
      (match candPrice c with
      | none => (none, none, 0)
      | some p =>
        if 0 < p ∧ 1/5 < simScore (searchTermOf brand name) c then
          (some p, some (candDescr c), roundScore (simScore (searchTermOf brand name) c))
        else (none, none, 0)) := by
  rw [search_product_eq, h]

unseal pyReplace extendBackNonJunk extendFwdNonJunk extendBackJunk extendFwdJunk

/-! ## Helper lemmas: query-term construction -/

/-- `s.replace(c, '')` for a single character removes every occurrence. -/
theorem pyReplace_single (c : Char) (s : List Char) :
    pyReplace [c] [] s = s.filter (fun d => !(d == c)) := by
  induction s with
  | nil => simp [pyReplace]
  | cons d rest ih =>
    rw [pyReplace]
    by_cases hdc : c = d
    · subst hdc
      simp [List.isPrefixOf, ih]
    · have hne : (c == d) = false := by simp [hdc]
      simp [List.isPrefixOf, hne, ih, Ne.symm hdc]

/-- The two chained `replace` calls of line 66 strip exactly the quote
and comma characters. -/
theorem pyReplace_strip (s : List Char) :
    pyReplace ",".data [] (pyReplace "\"".data [] s)
      = s.filter (fun ch => !(ch == '"' || ch == ',')) := by
  show pyReplace [','] [] (pyReplace ['"'] [] s) = _
  rw [pyReplace_single, pyReplace_single, List.filter_filter]
  congr 1
  funext ch
  by_cases h1 : ch = '"' <;> by_cases h2 : ch = ',' <;> simp [h1, h2, Bool.and_comm]

/-- `split(sep)[0]` truncates at the first occurrence of `sep`: the
result is a prefix of the input, does not contain `sep`, and is either
the whole input (no occurrence) or followed immediately by `sep`. -/
theorem pySplitFirst_spec (sep : List Char) (hsep : sep ≠ []) (s : List Char) :
    pySplitFirst sep s <+: s ∧
    ¬ (sep <:+: pySplitFirst sep s) ∧
    (pySplitFirst sep s = s ∨ (pySplitFirst sep s ++ sep) <+: s) := by
  induction s with
  | nil =>
    refine ⟨by simp [pySplitFirst], ?_, Or.inl rfl⟩
    simp [pySplitFirst, hsep]
  | cons d rest ih =>
    rw [pySplitFirst]
    by_cases hp : sep.isPrefixOf (d :: rest)
    · rw [if_pos hp]
      refine ⟨by simp, by simp [hsep], Or.inr ?_⟩
      simpa using (List.isPrefixOf_iff_prefix).1 hp
    · rw [if_neg hp]
      obtain ⟨h1, h2, h3⟩ := ih
      refine ⟨by simpa using h1, ?_, ?_⟩
      · intro hinf
        rcases (List.infix_cons_iff).1 hinf with hpre | hinf'
        · exact hp ((List.isPrefixOf_iff_prefix).2
            (hpre.trans ((List.cons_prefix_cons).2 ⟨rfl, h1⟩)))
        · exact h2 hinf'
      · rcases h3 with h | h
        · exact Or.inl (by rw [h])
        · exact Or.inr (by simpa using h)

/-! ## Claims C2, C4, C10, C5 -/

/-- C2, counterexample: the claim "a candidate with promotional price 0
and regular price 3.00 yields 3.00" is false on the code — line 97
returns the value under the `promo` key whenever that key is present,
so the extracted price is 0, not 3.00. -/
theorem extractPrice_promo_zero_cex :
    extractPrice ⟨some 0, some 3⟩ = 0 ∧ extractPrice ⟨some 0, some 3⟩ ≠ 3 := by
  constructor
  · rfl
  · intro h
    exact absurd h (by norm_num [extractPrice])

/-- C2, amended: the extracted price is the promotional price whenever
the `promo` key is present (whatever its value, including 0), else the
regular price when present, else 0; promo 2.50 with regular 3.00 yields
2.50, and promo 0 with regular 3.00 yields 0 (which the positivity gate
then rejects). -/
theorem extractPrice_promo_precedence :
    (∀ pr : Prices, ∀ v : ℚ, pr.promo = some v → extractPrice pr = v) ∧
    (∀ pr : Prices, pr.promo = none → ∀ w : ℚ, pr.regular = some w → extractPrice pr = w) ∧
    (∀ pr : Prices, pr.promo = none → pr.regular = none → extractPrice pr = 0) ∧
    extractPrice ⟨some (5/2), some 3⟩ = 5/2 ∧
    extractPrice ⟨some 0, some 3⟩ = 0 := by
  refine ⟨?_, ?_, ?_, rfl, rfl⟩
  · rintro ⟨promo, reg⟩ v hv
    cases hv
    rfl
  · rintro ⟨promo, reg⟩ hp w hw
    cases hp
    cases hw
    rfl
  · rintro ⟨promo, reg⟩ hp hw
    cases hp
    cases hw
    rfl

/-- C2, witness for the amended claim: a present promo key wins. -/
theorem extractPrice_promo_precedence_witness :
    extractPrice ⟨some (7/2), some 1⟩ = 7/2 :=
  extractPrice_promo_precedence.1 ⟨some (7/2), some 1⟩ (7/2) rfl

/-- C4: the query term is built by stripping quote and comma characters
from the name, truncating at the first `" - "` (the truncation is a
prefix of the stripped name, contains no `" - "`, and is either the
whole stripped name or followed there by `" - "`), then prefixing the
brand and a space unless the lower-cased brand is a sentinel; brand
"Generic" with name "Large Eggs - 12ct" yields exactly "Large Eggs". -/
theorem searchTerm_construction (brand name : PyVal) :
    cleanNameOf name =
      pySplitFirst " - ".data ((pyStr name).filter (fun ch => !(ch == '"' || ch == ','))) ∧
    cleanNameOf name <+: (pyStr name).filter (fun ch => !(ch == '"' || ch == ',')) ∧
    ¬ (" - ".data <:+: cleanNameOf name) ∧
    (cleanNameOf name = (pyStr name).filter (fun ch => !(ch == '"' || ch == ',')) ∨
      (cleanNameOf name ++ " - ".data) <+:
        (pyStr name).filter (fun ch => !(ch == '"' || ch == ','))) ∧
    (pyLower (pyStr brand) ∈ sentinelBrands → searchTermOf brand name = cleanNameOf name) ∧
    (pyLower (pyStr brand) ∉ sentinelBrands →
      searchTermOf brand name = pyStr brand ++ " ".data ++ cleanNameOf name) ∧
    searchTermOf (.pstr "Generic".data) (.pstr "Large Eggs - 12ct".data) = "Large Eggs".data := by
  have hclean : cleanNameOf name =
      pySplitFirst " - ".data ((pyStr name).filter (fun ch => !(ch == '"' || ch == ','))) := by
    rw [cleanNameOf, pyReplace_strip]
  obtain ⟨h1, h2, h3⟩ := pySplitFirst_spec " - ".data (by decide)
    ((pyStr name).filter (fun ch => !(ch == '"' || ch == ',')))
  refine ⟨hclean, hclean ▸ h1, hclean ▸ h2, ?_, ?_, ?_, by decide⟩
  · rcases h3 with h | h
    · exact Or.inl (hclean.trans h)
    · exact Or.inr (hclean ▸ h)
  · intro hmem
    rw [searchTermOf, if_pos hmem]
  · intro hmem
    rw [searchTermOf, if_neg hmem]

/-- C4, witness: the concrete "Generic" / "Large Eggs - 12ct" instance. -/
theorem searchTerm_construction_witness :
    searchTermOf (.pstr "Generic".data) (.pstr "Large Eggs - 12ct".data) = "Large Eggs".data :=
  (searchTerm_construction (.pstr "Generic".data)
    (.pstr "Large Eggs - 12ct".data)).2.2.2.2.2.2

/-- C10: query construction first coerces both cells with `str(...)`
(so it is defined for non-string cells), and the float `NaN` of a
missing brand becomes the string "nan", which is in the sentinel set,
so the query term is the cleaned name alone. -/
theorem searchTerm_total_coercion :
    (∀ brand name : PyVal,
      searchTermOf brand name = searchTermOf (.pstr (pyStr brand)) (.pstr (pyStr name))) ∧
    pyStr .pfloatNaN = "nan".data ∧
    (∀ name : PyVal, searchTermOf .pfloatNaN name = cleanNameOf name) := by
  refine ⟨fun brand name => rfl, rfl, fun name => ?_⟩
  rw [searchTermOf, if_pos (by decide)]

/-- The failure classes of C5: a raised transport error or timeout, a
non-200 status, a body whose parse raises, a missing or empty `data`
array, or a first candidate whose present `items` array is empty
(`IndexError`). -/
def rejectingResponse (resp : ApiResponse) : Prop :=
  resp = .transportError ∨
  (∃ st body, resp = .httpResponse st body ∧ st ≠ 200) ∨
  resp = .httpResponse 200 none ∨
  (∃ b, resp = .httpResponse 200 (some b) ∧ (b.data = none ∨ b.data = some [])) ∨
  (∃ b p rest, resp = .httpResponse 200 (some b) ∧ b.data = some (p :: rest) ∧
    p.items = some [])

/-- C5: `search_product` never lets an error escape — every response,
failing or not, yields a plain triple, and on any of the failure classes
the triple is the rejected outcome `(None, None, 0)`. -/
theorem search_product_never_raises (brand name : PyVal) (resp : ApiResponse) :
    (search_product brand name resp = (none, none, 0) ∨
      (∃ p nm sc, search_product brand name resp = (some p, some nm, sc) ∧ 0 < p)) ∧
    (rejectingResponse resp → search_product brand name resp = (none, none, 0)) := by
  constructor
  · rcases hfc : firstCandidate resp with _ | ⟨c⟩
    · exact Or.inl (search_product_none brand name resp hfc)
    · rw [search_product_some brand name resp c hfc]
      rcases hcp : candPrice c with _ | ⟨p⟩
      · exact Or.inl rfl
      · by_cases hg : 0 < p ∧ 1/5 < simScore (searchTermOf brand name) c
        · exact Or.inr ⟨p, candDescr c, roundScore (simScore (searchTermOf brand name) c),
            if_pos hg, hg.1⟩
        · exact Or.inl (if_neg hg)
  · intro hrej
    rcases hrej with h | ⟨st, body, h, hst⟩ | h | ⟨b, h, hd⟩ | ⟨b, p, rest, h, hd, hit⟩
    · subst h
      rfl
    · subst h
      simp only [search_product, searchProductBody, if_neg hst]
    · subst h
      rfl
    · subst h
      rcases hd with hd | hd <;>
        simp only [search_product, searchProductBody, reduceIte, hd]
    · subst h
      simp only [search_product, searchProductBody, reduceIte, hd, hit]

/-- C5, witness: a transport error (or timeout) yields the rejected
outcome. -/
theorem search_product_never_raises_witness :
    search_product (.pstr "Kroger".data) (.pstr "Milk".data) .transportError
      = (none, none, 0) :=
  (search_product_never_raises (.pstr "Kroger".data) (.pstr "Milk".data)
    .transportError).2 (Or.inl rfl)

/-! ## Helper lemmas: the enrichment loop -/

/-- The loop as a recursion over rows with explicit start index. -/
def runAux (oracle : ℕ → ApiResponse) : ℕ → List CatalogRow → List (ℕ × EnrichedRow)
  | _, [] => []
  | i, r :: rest =>
    (match enrichStep oracle i r with
     | some e => [(i, e)]
     | none => []) ++ runAux oracle (i + 1) rest

theorem foldl_loopAppend (oracle : ℕ → ApiResponse) :
    ∀ (l : List (ℕ × CatalogRow)) (acc : List (ℕ × EnrichedRow)),
      l.foldl (loopAppend oracle) acc
        = acc ++ l.filterMap (fun ir => (enrichStep oracle ir.1 ir.2).map (fun e => (ir.1, e))) := by
  intro l
  induction l with
  | nil => intro acc; simp
  | cons ir t ih =>
    intro acc
    rw [List.foldl_cons, ih, List.filterMap_cons]
    rcases h : enrichStep oracle ir.1 ir.2 with _ | ⟨e⟩ <;>
      simp [loopAppend, h]

theorem enumFrom_filterMap_runAux (oracle : ℕ → ApiResponse) :
    ∀ (rows : List CatalogRow) (i : ℕ),
      (List.enumFrom i rows).filterMap
          (fun ir => (enrichStep oracle ir.1 ir.2).map (fun e => (ir.1, e)))
        = runAux oracle i rows := by
  intro rows
  induction rows with
  | nil => intro i; rfl
  | cons r t ih =>
    intro i
    rw [List.enumFrom_cons, List.filterMap_cons, runAux, ← ih (i + 1)]
    rcases h : enrichStep oracle i r with _ | ⟨e⟩ <;> simp [h]

theorem runLoop_eq_runAux (rows : List CatalogRow) (oracle : ℕ → ApiResponse) :
    runLoop rows oracle = runAux oracle 0 rows := by
  rw [runLoop, foldl_loopAppend, List.nil_append, List.enum, enumFrom_filterMap_runAux]

theorem runAux_mem (oracle : ℕ → ApiResponse) :
    ∀ (rows : List CatalogRow) (i k : ℕ) (e : EnrichedRow),
      ((k, e) ∈ runAux oracle i rows ↔
        ∃ j r, rows[j]? = some r ∧ k = i + j ∧ enrichStep oracle k r = some e) := by
  intro rows
  induction rows with
  | nil => intro i k e; simp [runAux]
  | cons r t ih =>
    intro i k e
    rw [runAux, List.mem_append, ih (i + 1)]
    constructor
    · rintro (hhead | ⟨j, r', hj, hk, hstep⟩)
      · rcases h : enrichStep oracle i r with _ | ⟨e'⟩
        · rw [h] at hhead
          simp at hhead
        · rw [h] at hhead
          simp at hhead
          exact ⟨0, r, by simp, by omega, by rw [hhead.1, h, hhead.2]⟩
      · exact ⟨j + 1, r', by simpa using hj, by omega, hstep⟩
    · rintro ⟨j, r', hj, hk, hstep⟩
      rcases j with _ | j
      · simp at hj
        left
        subst hj
        rw [show k = i by omega] at hstep ⊢
        rw [hstep]
        simp
      · right
        exact ⟨j, r', by simpa using hj, by omega, hstep⟩

theorem runAux_indices (oracle : ℕ → ApiResponse) :
    ∀ (rows : List CatalogRow) (i : ℕ) (p : ℕ × EnrichedRow),
      p ∈ runAux oracle i rows → i ≤ p.1 ∧ p.1 < i + rows.length := by
  intro rows i p hp
  rcases p with ⟨k, e⟩
  rcases (runAux_mem oracle rows i k e).1 hp with ⟨j, r, hj, hk, _⟩
  have hlt : j < rows.length := by
    by_contra hge
    rw [List.getElem?_eq_none (by omega)] at hj
    exact Option.noConfusion hj
  constructor
  · show i ≤ k
    omega
  · show k < i + rows.length
    omega

theorem runAux_countP (oracle : ℕ → ApiResponse) :
    ∀ (rows : List CatalogRow) (i k : ℕ),
      (runAux oracle i rows).countP (fun p => p.1 = k) ≤ 1 := by
  intro rows
  induction rows with
  | nil => intro i k; simp [runAux]
  | cons r t ih =>
    intro i k
    rw [runAux, List.countP_append]
    rcases h : enrichStep oracle i r with _ | ⟨e⟩
    · simpa using ih (i + 1) k
    · by_cases hk : k = i
      · have htail : (runAux oracle (i + 1) t).countP (fun p => p.1 = k) = 0 := by
          rw [List.countP_eq_zero]
          intro p hp
          have := runAux_indices oracle t (i + 1) p hp
          simp only [decide_eq_true_eq]
          omega
        rw [htail]
        have hle : ([(i, e)] : List (ℕ × EnrichedRow)).countP (fun p => p.1 = k) ≤ 1 :=
          le_trans (List.countP_le_length _) (by simp)
        simpa using hle
      · have hhead : ([(i, e)] : List (ℕ × EnrichedRow)).countP (fun p => p.1 = k) = 0 := by
          simp [List.countP_cons, show i ≠ k from fun hik => hk hik.symm]
        rw [hhead]
        simpa using ih (i + 1) k

/-- The acceptance of one row's outcome, spelled as the claim does:
a candidate present, an extracted price strictly positive, and a
similarity ratio strictly above 0.2. -/
def acceptedRow (oracle : ℕ → ApiResponse) (i : ℕ) (r : CatalogRow) : Prop :=
  ∃ c p, firstCandidate (oracle i) = some c ∧ candPrice c = some p ∧ 0 < p ∧
    1/5 < simScore (searchTermOf r.brand r.productName) c

theorem enrichStep_some_iff (oracle : ℕ → ApiResponse) (i : ℕ) (r : CatalogRow)
    (e : EnrichedRow) :
    enrichStep oracle i r = some e ↔
      ∃ c p, firstCandidate (oracle i) = some c ∧ candPrice c = some p ∧ 0 < p ∧
        1/5 < simScore (searchTermOf r.brand r.productName) c ∧
        e = ⟨r, p, some (candDescr c),
          roundScore (simScore (searchTermOf r.brand r.productName) c)⟩ := by
  constructor
  · intro h
    rcases hfc : firstCandidate (oracle i) with _ | ⟨c⟩
    · have hstep : enrichStep oracle i r = none := by
        simp only [enrichStep, rowOutcome, search_product_none _ _ _ hfc]
      rw [hstep] at h
      exact Option.noConfusion h
    · rcases hcp : candPrice c with _ | ⟨p⟩
      · have hstep : enrichStep oracle i r = none := by
          simp only [enrichStep, rowOutcome, search_product_some _ _ _ _ hfc, hcp]
        rw [hstep] at h
        exact Option.noConfusion h
      · by_cases hg : 0 < p ∧
            1/5 < simScore (searchTermOf r.brand r.productName) c
        · have hout : rowOutcome oracle i r = (some p, some (candDescr c),
              roundScore (simScore (searchTermOf r.brand r.productName) c)) := by
            simp only [rowOutcome]
            rw [search_product_some _ _ _ _ hfc, hcp]
            exact if_pos hg
          have hne0 : p ≠ 0 := by
            intro h0
            rw [h0] at hg
            exact lt_irrefl 0 hg.1
          have hstep : enrichStep oracle i r = some ⟨r, p, some (candDescr c),
              roundScore (simScore (searchTermOf r.brand r.productName) c)⟩ := by
            simp only [enrichStep, hout]
            exact if_pos hne0
          rw [hstep] at h
          exact ⟨c, p, rfl, hcp, hg.1, hg.2, (Option.some_inj.mp h).symm⟩
        · have hstep : enrichStep oracle i r = none := by
            have hout : rowOutcome oracle i r = (none, none, 0) := by
              simp only [rowOutcome]
              rw [search_product_some _ _ _ _ hfc, hcp]
              exact if_neg hg
            simp only [enrichStep, hout]
          rw [hstep] at h
          exact Option.noConfusion h
  · rintro ⟨c, p, hfc, hcp, hpos, hsim, he⟩
    have hout : rowOutcome oracle i r = (some p, some (candDescr c),
        roundScore (simScore (searchTermOf r.brand r.productName) c)) := by
      simp only [rowOutcome]
      rw [search_product_some _ _ _ _ hfc, hcp]
      exact if_pos ⟨hpos, hsim⟩
    have hne0 : p ≠ 0 := by
      intro h0
      rw [h0] at hpos
      exact lt_irrefl 0 hpos
    have hstep : enrichStep oracle i r = some ⟨r, p, some (candDescr c),
        roundScore (simScore (searchTermOf r.brand r.productName) c)⟩ := by
      simp only [enrichStep, hout]
      exact if_pos hne0
    rw [hstep, he]

/-! ## Claim C1 -/

/-- C1: a pair `(i, e)` is in the output exactly when row `i` exists and
its search produced an accepted outcome (candidate present, extracted
price > 0, similarity ratio > 0.2) with `e` the fully determined
enriched row; no source row contributes more than one output row; and
every output row carries a positive price and an above-threshold
similarity. -/
theorem runLoop_output_iff_accepted (rows : List CatalogRow) (oracle : ℕ → ApiResponse) :
    (∀ i e, (i, e) ∈ runLoop rows oracle ↔
      ∃ r, rows[i]? = some r ∧
        ∃ c p, firstCandidate (oracle i) = some c ∧ candPrice c = some p ∧ 0 < p ∧
          1/5 < simScore (searchTermOf r.brand r.productName) c ∧
          e = ⟨r, p, some (candDescr c),
            roundScore (simScore (searchTermOf r.brand r.productName) c)⟩) ∧
    (∀ i, (runLoop rows oracle).countP (fun p => p.1 = i) ≤ 1) ∧
    (∀ p ∈ runLoop rows oracle, 0 < p.2.price ∧ acceptedRow oracle p.1 p.2.row) := by
  refine ⟨?_, ?_, ?_⟩
  · intro i e
    rw [runLoop_eq_runAux, runAux_mem]
    constructor
    · rintro ⟨j, r, hj, hk, hstep⟩
      rw [show j = i by omega] at hj
      exact ⟨r, hj, (enrichStep_some_iff oracle i r e).1 hstep⟩
    · rintro ⟨r, hj, hacc⟩
      exact ⟨i, r, hj, by omega, (enrichStep_some_iff oracle i r e).2 hacc⟩
  · intro i
    rw [runLoop_eq_runAux]
    exact runAux_countP oracle rows 0 i
  · rintro ⟨k, e⟩ hp
    rw [runLoop_eq_runAux, runAux_mem] at hp
    rcases hp with ⟨j, r, hj, hk, hstep⟩
    rcases (enrichStep_some_iff oracle k r e).1 hstep with ⟨c, p, hfc, hcp, hpos, hsim, he⟩
    subst he
    exact ⟨hpos, c, p, hfc, hcp, hpos, hsim⟩

/-! ## Claim C6 -/

theorem runInterrupted_eq (oracle : ℕ → ApiResponse) :
    ∀ (l : List (ℕ × CatalogRow)) (k : ℕ) (acc : List (ℕ × EnrichedRow)),
      runInterrupted oracle l k acc = (l.take k).foldl (loopAppend oracle) acc := by
  intro l
  induction l with
  | nil => intro k acc; cases k <;> rfl
  | cons ir t ih =>
    intro k acc
    cases k with
    | zero => rfl
    | succ k' =>
      rw [runInterrupted, ih, List.take_succ_cons, List.foldl_cons]

theorem enumFrom_take :
    ∀ (rows : List CatalogRow) (i k : ℕ),
      (List.enumFrom i rows).take k = List.enumFrom i (rows.take k) := by
  intro rows
  induction rows with
  | nil => intro i k; simp
  | cons r t ih =>
    intro i k
    cases k with
    | zero => rfl
    | succ k' => simp [List.enumFrom_cons, List.take_succ_cons, ih]

theorem interruptedResults_eq_take (rows : List CatalogRow) (oracle : ℕ → ApiResponse)
    (k : ℕ) :
    interruptedResults rows oracle k = runLoop (rows.take k) oracle := by
  rw [interruptedResults, runInterrupted_eq, runLoop]
  simp only [List.enum]
  rw [enumFrom_take]

theorem runAux_length (oracle : ℕ → ApiResponse) :
    ∀ (rows : List CatalogRow) (i : ℕ),
      (runAux oracle i rows).length
        = (List.enumFrom i rows).countP (fun ir => (enrichStep oracle ir.1 ir.2).isSome) := by
  intro rows
  induction rows with
  | nil => intro i; rfl
  | cons r t ih =>
    intro i
    rw [runAux, List.length_append, ih (i + 1), List.enumFrom_cons, List.countP_cons]
    rcases h : enrichStep oracle i r with _ | ⟨e⟩ <;> simp [h] <;> omega

/-- C6: interruption after `k` committed iterations keeps exactly the
accepted rows among the first `k`: the saved accumulator equals the
uninterrupted run over the consumed prefix, membership is acceptance
within the prefix with the enriched row fully computed, no index repeats,
and the accumulator's length is the number of accepted consumed rows. -/
theorem interrupted_run_keeps_accepted (rows : List CatalogRow)
    (oracle : ℕ → ApiResponse) (k : ℕ) :
    interruptedResults rows oracle k = runLoop (rows.take k) oracle ∧
    (∀ i e, (i, e) ∈ interruptedResults rows oracle k ↔
      (i < k ∧ ∃ r, rows[i]? = some r ∧ enrichStep oracle i r = some e)) ∧
    (∀ i, (interruptedResults rows oracle k).countP (fun p => p.1 = i) ≤ 1) ∧
    (interruptedResults rows oracle k).length
      = (rows.take k).enum.countP (fun ir => (enrichStep oracle ir.1 ir.2).isSome) := by
  refine ⟨interruptedResults_eq_take rows oracle k, ?_, ?_, ?_⟩
  · intro i e
    rw [interruptedResults_eq_take, runLoop_eq_runAux, runAux_mem]
    constructor
    · rintro ⟨j, r, hj, hk, hstep⟩
      rw [show j = i by omega] at hj
      rw [List.getElem?_take] at hj
      by_cases hik : i < k
      · rw [if_pos hik] at hj
        exact ⟨hik, r, hj, hstep⟩
      · rw [if_neg hik] at hj
        exact Option.noConfusion hj
    · rintro ⟨hik, r, hj, hstep⟩
      exact ⟨i, r, by rw [List.getElem?_take, if_pos hik]; exact hj, by omega, hstep⟩
  · intro i
    rw [interruptedResults_eq_take, runLoop_eq_runAux]
    exact runAux_countP oracle (rows.take k) 0 i
  · rw [interruptedResults_eq_take, runLoop_eq_runAux, runAux_length, List.enum]

/-! ## Claim C7 -/

theorem iterEvents_shape (oracle : ℕ → ApiResponse) (i : ℕ) (r : CatalogRow) :
    ∃ mid, iterEvents oracle (i, r) = RunEvent.query i :: (mid ++ [RunEvent.sleepMs 60]) ∧
      ((mid = [] ∧ enrichStep oracle i r = none) ∨
        (∃ e, enrichStep oracle i r = some e ∧ mid = [RunEvent.append i])) := by
  rcases h : enrichStep oracle i r with _ | ⟨e⟩
  · exact ⟨[], by simp [iterEvents, h], Or.inl ⟨rfl, rfl⟩⟩
  · exact ⟨[RunEvent.append i], by simp [iterEvents, h], Or.inr ⟨e, rfl, rfl⟩⟩

theorem trace_sleep_count (oracle : ℕ → ApiResponse) :
    ∀ l : List (ℕ × CatalogRow),
      ((l.map (iterEvents oracle)).flatten).countP
        (fun ev => ev = RunEvent.sleepMs 60) = l.length := by
  intro l
  induction l with
  | nil => rfl
  | cons ir t ih =>
    have hone : (iterEvents oracle ir).countP (fun ev => ev = RunEvent.sleepMs 60) = 1 := by
      rcases h : enrichStep oracle ir.1 ir.2 with _ | ⟨e⟩ <;>
        simp [iterEvents, h, List.countP_cons]
    rw [List.map_cons, List.flatten_cons, List.countP_append, ih, hone, List.length_cons]
    omega

theorem trace_query_order (oracle : ℕ → ApiResponse) :
    ∀ l : List (ℕ × CatalogRow),
      ((l.map (iterEvents oracle)).flatten).filterMap
          (fun ev => match ev with | RunEvent.query i => some i | _ => none)
        = l.map Prod.fst := by
  intro l
  induction l with
  | nil => rfl
  | cons ir t ih =>
    rw [List.map_cons, List.flatten_cons, List.filterMap_append, ih]
    have hiter : (iterEvents oracle ir).filterMap
        (fun ev => match ev with | RunEvent.query i => some i | _ => none) = [ir.1] := by
      rcases h : enrichStep oracle ir.1 ir.2 with _ | ⟨e⟩ <;>
        simp [iterEvents, h, List.filterMap_cons]
    rw [hiter, List.map_cons]
    rfl

/-- C7: every completed iteration's events are the query, the optional
append, then the fixed 60 ms sleep — the sleep runs after the outcome is
handled whether the row was accepted or not; the whole serial trace
holds one sleep per row and issues the queries in catalog order. -/
theorem pacing_after_every_row (rows : List CatalogRow) (oracle : ℕ → ApiResponse) :
    (∀ i r, ∃ mid,
      iterEvents oracle (i, r) = RunEvent.query i :: (mid ++ [RunEvent.sleepMs 60]) ∧
      ((mid = [] ∧ enrichStep oracle i r = none) ∨
        (∃ e, enrichStep oracle i r = some e ∧ mid = [RunEvent.append i]))) ∧
    (loopTrace rows oracle).countP (fun ev => ev = RunEvent.sleepMs 60) = rows.length ∧
    (loopTrace rows oracle).filterMap
        (fun ev => match ev with | RunEvent.query i => some i | _ => none)
      = List.range rows.length := by
  refine ⟨iterEvents_shape oracle, ?_, ?_⟩
  · rw [loopTrace, trace_sleep_count]
    exact List.enum_length
  · rw [loopTrace, trace_query_order, List.enum_map_fst]

/-! ## Claim C8 -/

/-- C8: when the accumulator is non-empty, the written table's columns
are the seven fixed output columns followed by the input's passthrough
(nutrition) columns — those that are none of UPC/Brand/Product_Name —
kept in their original relative order (a sublist of the input order). -/
theorem saved_columns_order (rows : List CatalogRow) (oracle : ℕ → ApiResponse)
    (inputCols : List (List Char))
    (hne : runLoop rows oracle ≠ [])
    (hdisj : ∀ c ∈ inputCols, c ∉ appendedCols) :
    savedColumns rows oracle inputCols
      = some (outputCols ++ inputCols.filter
          (fun c => ¬(c = "UPC".data ∨ c = "Brand".data ∨ c = "Product_Name".data))) ∧
    List.Sublist (inputCols.filter
        (fun c => ¬(c = "UPC".data ∨ c = "Brand".data ∨ c = "Product_Name".data)))
      inputCols := by
  constructor
  · rw [savedColumns, if_neg hne]
    congr 1
    rw [finalCols, frameCols, List.filter_append]
    have happ : appendedCols.filter (fun c => c ∉ outputCols) = [] := by decide
    rw [happ, List.append_nil]
    congr 1
    apply List.filter_congr
    intro c hc
    have hnotapp := hdisj c hc
    simp only [appendedCols, List.mem_cons, List.not_mem_nil, or_false, not_or] at hnotapp
    obtain ⟨h4, h5, h6, h7⟩ := hnotapp
    rw [decide_eq_decide]
    simp only [outputCols, List.mem_cons, List.not_mem_nil, or_false, not_or]
    constructor
    · rintro ⟨g1, g2, g3, _⟩
      exact ⟨g1, g2, g3⟩
    · rintro ⟨g1, g2, g3⟩
      exact ⟨g1, g2, g3, h4, h5, h6, h7⟩
  · exact List.filter_sublist inputCols

/-- A one-row demonstration input for the witnesses: an unknown brand
(so the query term is the cleaned name), with the API returning a
perfect-match candidate priced at 3. -/
def demoCand : ProductJ := ⟨some "Milk".data, some [⟨some ⟨none, some 3⟩⟩]⟩

/-- The response carrying `demoCand`. -/
def demoResp : ApiResponse := .httpResponse 200 (some ⟨some [demoCand]⟩)

/-- The catalog row the demonstration enriches. -/
def demoRow : CatalogRow := ⟨.pstr "Unknown".data, .pstr "Milk".data⟩

theorem demo_ratio_one : pyRatio "milk".data "milk".data = 1 := by
  have hsum : blocksSizeSum ['m', 'i', 'l', 'k'] ['m', 'i', 'l', 'k']
      (mkB2J ['m', 'i', 'l', 'k']) (fun _ => false) 9 0 4 0 4 = 4 := by decide
  simp only [pyRatio]
  norm_num [hsum]

theorem demo_enrichStep :
    enrichStep (fun _ => demoResp) 0 demoRow
      = some ⟨demoRow, 3, some (candDescr demoCand),
          roundScore (simScore (searchTermOf demoRow.brand demoRow.productName) demoCand)⟩ := by
  apply (enrichStep_some_iff (fun _ => demoResp) 0 demoRow _).2
  refine ⟨demoCand, 3, rfl, rfl, by norm_num, ?_, rfl⟩
  have hterm : searchTermOf demoRow.brand demoRow.productName = "Milk".data := by decide
  have hdesc : candDescr demoCand = "Milk".data := rfl
  have hlow : pyLower "Milk".data = "milk".data := by decide
  rw [simScore, hterm, hdesc, hlow, demo_ratio_one]
  norm_num

theorem demo_runLoop_ne_nil : runLoop [demoRow] (fun _ => demoResp) ≠ [] := by
  rw [runLoop_eq_runAux]
  intro hempty
  rw [runAux, demo_enrichStep] at hempty
  simp at hempty

/-- C8, witness: a one-row accepted run with one passthrough column. -/
theorem saved_columns_order_witness :
    savedColumns [demoRow] (fun _ => demoResp)
        ["UPC".data, "Brand".data, "Product_Name".data, "Calories".data]
      = some (outputCols ++ (["UPC".data, "Brand".data, "Product_Name".data,
          "Calories".data].filter
            (fun c => ¬(c = "UPC".data ∨ c = "Brand".data ∨ c = "Product_Name".data)))) :=
  (saved_columns_order [demoRow] (fun _ => demoResp)
    ["UPC".data, "Brand".data, "Product_Name".data, "Calories".data]
    demo_runLoop_ne_nil (by decide)).1

/-! ## Claim C9 -/

/-- C9: a falsy auth token stops the run right after the auth call; a
falsy location stops it right after the location call; in either fatal
case the trace contains no product query and no output write — the two
checks happen before the loop, so the loop and the save step run only
when both have succeeded. -/
theorem fatal_checks_front_loaded (authRes locRes : Option (List Char))
    (rows : List CatalogRow) (oracle : ℕ → ApiResponse) :
    (pyFalsy authRes = true → mainTrace authRes locRes rows oracle = [RunEvent.authCall]) ∧
    (pyFalsy authRes = false → pyFalsy locRes = true →
      mainTrace authRes locRes rows oracle = [RunEvent.authCall, RunEvent.locationCall]) ∧
    ((pyFalsy authRes = true ∨ pyFalsy locRes = true) →
      (mainTrace authRes locRes rows oracle).countP
          (fun ev => match ev with | RunEvent.query _ => true | _ => false) = 0 ∧
      RunEvent.writeOutput ∉ mainTrace authRes locRes rows oracle) ∧
    (pyFalsy authRes = false → pyFalsy locRes = false →
      ∃ rest, mainTrace authRes locRes rows oracle
        = RunEvent.authCall :: RunEvent.locationCall :: rest) := by
  refine ⟨?_, ?_, ?_, ?_⟩
  · intro ha
    simp [mainTrace, ha]
  · intro ha hl
    simp [mainTrace, ha, hl]
  · intro h
    rcases hb : pyFalsy authRes
    · rcases h with ha | hl
      · rw [hb] at ha
        exact Bool.noConfusion ha
      · simp [mainTrace, hb, hl]
    · simp [mainTrace, hb]
  · intro ha hl
    refine ⟨loopTrace rows oracle
        ++ (if runLoop rows oracle = [] then [] else [RunEvent.writeOutput]), ?_⟩
    simp [mainTrace, ha, hl]

/-- C9, witness: a failed authentication yields the bare auth-call trace. -/
theorem fatal_checks_front_loaded_witness :
    mainTrace none (some "store1".data) [demoRow] (fun _ => demoResp) = [RunEvent.authCall] :=
  (fatal_checks_front_loaded none (some "store1".data) [demoRow] (fun _ => demoResp)).1 rfl

/-! ## Proof infrastructure for the identity property of `pyRatio`

For `SequenceMatcher(None, s, s)` the scan of `find_longest_match` only
ever improves `best` at diagonal positions: an off-diagonal run of some
length forces an at-least-as-long diagonal run that the (ascending `i`,
ascending `j`) scan meets no later.  The invariants below capture the
shape of `j2len` after each row and of `best` during the scan, for the
full-range call `alo = blo = 0`, `ahi = bhi = len(s)`. -/

/-- Length of the maximal run of non-popular characters of `s` ending at
position `j` — the value the scan's `j2len` holds on the diagonal. -/
def dRun (s : List Char) : ℕ → ℕ
  | 0 => if popularB s (s.getD 0 ' ') then 0 else 1
  | j + 1 => if popularB s (s.getD (j + 1) ' ') then 0 else dRun s j + 1

theorem dRun_le (s : List Char) : ∀ j, dRun s j ≤ j + 1 := by
  intro j
  induction j with
  | zero => rw [dRun]; split <;> omega
  | succ j ih => rw [dRun]; split <;> omega

theorem dRun_pos (s : List Char) (j : ℕ)
    (h : popularB s (s.getD j ' ') = false) : 1 ≤ dRun s j := by
  cases j with
  | zero => rw [dRun, if_neg (by rw [h]; exact Bool.false_ne_true)]
  | succ j => rw [dRun, if_neg (by rw [h]; exact Bool.false_ne_true)]; omega

theorem dRun_succ_eq (s : List Char) (j : ℕ)
    (h : popularB s (s.getD (j + 1) ' ') = false) :
    dRun s (j + 1) = dRun s j + 1 := by
  rw [dRun, if_neg (by rw [h]; exact Bool.false_ne_true)]

theorem dRun_pop (s : List Char) (j : ℕ)
    (h : popularB s (s.getD j ' ') = true) : dRun s j = 0 := by
  cases j with
  | zero => rw [dRun, if_pos h]
  | succ j => rw [dRun, if_pos h]

/-- Membership in the `b2j` index. -/
theorem mem_mkB2J (s : List Char) (c : Char) (j : ℕ) :
    j ∈ mkB2J s c ↔ popularB s c = false ∧ j < s.length ∧ s.getD j ' ' = c := by
  rw [mkB2J]
  by_cases hp : popularB s c
  · simp [hp]
  · have hp' : popularB s c = false := by simpa using hp
    simp [hp', List.mem_filter, List.mem_range]

/-- The `b2j` position lists are strictly ascending. -/
theorem mkB2J_sorted (s : List Char) (c : Char) :
    (mkB2J s c).Pairwise (· < ·) := by
  rw [mkB2J]
  split
  · exact List.Pairwise.nil
  · exact (List.pairwise_lt_range _).filter _

/-- The `j2len` invariant after the first `m` rows of the scan of
`find_longest_match(0, n, 0, n)` on two copies of `s`: every entry is at
most the diagonal run at its column, at most the diagonal run at the
last processed row, and the just-processed diagonal entry is exact. -/
def JInv (s : List Char) (m : ℕ) (g : ℕ → ℕ) : Prop :=
  (∀ x, g x ≤ dRun s x) ∧
  (∀ x, g x ≤ (if m = 0 then 0 else dRun s (m - 1))) ∧
  (1 ≤ m → g (m - 1) = dRun s (m - 1))

/-- The `best` invariant after the first `m` rows: diagonal, dominating
every processed diagonal run, and contained in `[0, n)`. -/
def BInv (s : List Char) (m : ℕ) (best : ℕ × ℕ × ℕ) : Prop :=
  best.1 = best.2.1 ∧
  (∀ j, j < m → dRun s j ≤ best.2.2) ∧
  best.1 + best.2.2 ≤ s.length

/-- The inner loop with in-range positions: final `newj2len`, and the
`best` evolution as a fold of the update step. -/
theorem innerLoop_spec (n i : ℕ) (g : ℕ → ℕ) :
    ∀ (js : List ℕ) (new : ℕ → ℕ) (best : ℕ × ℕ × ℕ), (∀ j ∈ js, j < n) →
      (∀ x, (innerLoop 0 n i g js new best).1 x
        = if x ∈ js then kval g x else new x) ∧
      (innerLoop 0 n i g js new best).2 = js.foldl (bestUpd i g) best := by
  intro js
  induction js with
  | nil =>
    intro new best h
    exact ⟨fun x => by simp [innerLoop], by simp [innerLoop]⟩
  | cons j js' ih =>
    intro new best h
    have hjn : j < n := h j (by simp)
    rw [innerLoop, if_neg (by omega), if_neg (by omega)]
    obtain ⟨ih1, ih2⟩ := ih (fun x => if x = j then kval g j else new x)
      (bestUpd i g best j) (fun x hx => h x (by simp [hx]))
    refine ⟨fun x => ?_, by rw [ih2, List.foldl_cons]⟩
    rw [ih1 x]
    by_cases hxj : x = j
    · subst hxj
      by_cases hxin : x ∈ js' <;> simp [hxin]
    · by_cases hxin : x ∈ js' <;> simp [hxin, hxj]

/-- A fold of updates none of which clears the current best size is the
identity. -/
theorem foldl_bestUpd_noupdate (i : ℕ) (g : ℕ → ℕ) :
    ∀ (js : List ℕ) (best : ℕ × ℕ × ℕ), (∀ j ∈ js, kval g j ≤ best.2.2) →
      js.foldl (bestUpd i g) best = best := by
  intro js
  induction js with
  | nil => intro best h; rfl
  | cons j js' ih =>
    intro best h
    rw [List.foldl_cons, bestUpd, if_neg (by have := h j (by simp); omega)]
    exact ih best (fun x hx => h x (by simp [hx]))

theorem kval_zero (g : ℕ → ℕ) : kval g 0 = 1 := by
  rw [kval, if_pos rfl]

theorem kval_succ (g : ℕ → ℕ) (j : ℕ) : kval g (j + 1) = g j + 1 := by
  rw [kval, if_neg (by omega), Nat.add_sub_cancel]

/-- An in-index run value is bounded by the diagonal run at its column. -/
theorem kval_le_col (s : List Char) (g : ℕ → ℕ)
    (hcol : ∀ x, g x ≤ dRun s x) (j : ℕ)
    (hpopj : popularB s (s.getD j ' ') = false) : kval g j ≤ dRun s j := by
  cases j with
  | zero => rw [kval_zero]; exact dRun_pos s 0 hpopj
  | succ j =>
    rw [kval_succ, dRun_succ_eq s j hpopj]
    have := hcol j
    omega

/-- An in-index run value is bounded by the diagonal run at the current
row. -/
theorem kval_le_row (s : List Char) (g : ℕ → ℕ) (m : ℕ)
    (hrow : ∀ x, g x ≤ (if m = 0 then 0 else dRun s (m - 1)))
    (hpopm : popularB s (s.getD m ' ') = false) (j : ℕ) :
    kval g j ≤ dRun s m := by
  cases j with
  | zero => rw [kval_zero]; exact dRun_pos s m hpopm
  | succ j =>
    rw [kval_succ]
    have hgj := hrow j
    cases m with
    | zero =>
      rw [if_pos rfl] at hgj
      have h1 := dRun_pos s 0 hpopm
      omega
    | succ m =>
      rw [if_neg (by omega)] at hgj
      rw [dRun_succ_eq s m hpopm]
      simp only [Nat.add_sub_cancel] at hgj
      omega

/-- On the diagonal the run value is exact. -/
theorem kval_diag (s : List Char) (g : ℕ → ℕ) (m : ℕ)
    (hdiag : 1 ≤ m → g (m - 1) = dRun s (m - 1))
    (hpopm : popularB s (s.getD m ' ') = false) : kval g m = dRun s m := by
  cases m with
  | zero =>
    rw [kval_zero, dRun, if_neg (by rw [hpopm]; exact Bool.false_ne_true)]
  | succ m =>
    rw [kval_succ, dRun_succ_eq s m hpopm]
    have := hdiag (by omega)
    simp only [Nat.add_sub_cancel] at this
    omega

/-- One outer row of the scan preserves both invariants. -/
theorem outer_step (s : List Char) (m : ℕ) (hm : m < s.length) (g : ℕ → ℕ)
    (best : ℕ × ℕ × ℕ) (hg : JInv s m g) (hb : BInv s m best) :
    JInv s (m + 1) (innerLoop 0 s.length m g (mkB2J s (s.getD m ' ')) (fun _ => 0) best).1 ∧
    BInv s (m + 1) (innerLoop 0 s.length m g (mkB2J s (s.getD m ' ')) (fun _ => 0) best).2 := by
  obtain ⟨hcol, hrow, hdiag⟩ := hg
  obtain ⟨hbd, hbdom, hbbnd⟩ := hb
  by_cases hpop : popularB s (s.getD m ' ') = true
  · have hempty : mkB2J s (s.getD m ' ') = [] := by rw [mkB2J, if_pos hpop]
    rw [hempty]
    have hdm : dRun s m = 0 := dRun_pop s m hpop
    constructor
    · refine ⟨fun x => Nat.zero_le _, fun x => Nat.zero_le _, fun _ => ?_⟩
      show (0 : ℕ) = dRun s (m + 1 - 1)
      simp only [Nat.add_sub_cancel]
      omega
    · refine ⟨hbd, fun j hj => ?_, hbbnd⟩
      rcases Nat.lt_succ_iff_lt_or_eq.mp hj with h | h
      · exact hbdom j h
      · subst h
        omega
  · have hpop' : popularB s (s.getD m ' ') = false := by simpa using hpop
    obtain ⟨hspec1, hspec2⟩ := innerLoop_spec s.length m g (mkB2J s (s.getD m ' '))
      (fun _ => 0) best (fun j hj => ((mem_mkB2J s _ j).mp hj).2.1)
    have hmempop : ∀ j ∈ mkB2J s (s.getD m ' '),
        popularB s (s.getD j ' ') = false := by
      intro j hj
      obtain ⟨h1, _, h3⟩ := (mem_mkB2J s _ j).mp hj
      rw [h3]
      exact h1
    have hmmem : m ∈ mkB2J s (s.getD m ' ') := (mem_mkB2J s _ m).mpr ⟨hpop', hm, rfl⟩
    have hkdiag : kval g m = dRun s m := kval_diag s g m hdiag hpop'
    constructor
    · -- JInv (m+1) of the new dictionary
      refine ⟨fun x => ?_, fun x => ?_, fun _ => ?_⟩
      · rw [hspec1 x]
        by_cases hx : x ∈ mkB2J s (s.getD m ' ')
        · rw [if_pos hx]
          exact kval_le_col s g hcol x (hmempop x hx)
        · rw [if_neg hx]
          exact Nat.zero_le _
      · rw [hspec1 x, if_neg (Nat.succ_ne_zero m), Nat.add_sub_cancel]
        by_cases hx : x ∈ mkB2J s (s.getD m ' ')
        · rw [if_pos hx]
          exact kval_le_row s g m hrow hpop' x
        · rw [if_neg hx]
          exact Nat.zero_le _
      · rw [Nat.add_sub_cancel, hspec1 m, if_pos hmmem]
        exact hkdiag
    · -- BInv (m+1) of the evolved best
      rw [hspec2]
      obtain ⟨L, R, hLR⟩ := List.append_of_mem hmmem
      have hsort := mkB2J_sorted s (s.getD m ' ')
      rw [hLR] at hsort
      obtain ⟨hpairL, hpairMR, hcross⟩ := List.pairwise_append.mp hsort
      have hLlt : ∀ x ∈ L, x < m := fun x hx => hcross x hx m (by simp)
      have hRgt : ∀ y ∈ R, m < y := (List.pairwise_cons.mp hpairMR).1
      have hsubL : ∀ x ∈ L, x ∈ mkB2J s (s.getD m ' ') := by
        intro x hx
        rw [hLR]
        exact List.mem_append_left _ hx
      have hsubR : ∀ y ∈ R, y ∈ mkB2J s (s.getD m ' ') := by
        intro y hy
        rw [hLR]
        exact List.mem_append_right _ (by simp [hy])
      rw [hLR, List.foldl_append, List.foldl_cons]
      rw [foldl_bestUpd_noupdate m g L best
        (fun j hj => le_trans (kval_le_col s g hcol j (hmempop j (hsubL j hj)))
          (hbdom j (hLlt j hj)))]
      have hbest' : ∀ res, res = bestUpd m g best m →
          (res.1 = res.2.1 ∧ (∀ j, j < m + 1 → dRun s j ≤ res.2.2) ∧
            res.1 + res.2.2 ≤ s.length ∧ best.2.2 ≤ res.2.2) := by
        intro res hres
        rw [bestUpd, hkdiag] at hres
        by_cases hcmp : best.2.2 < dRun s m
        · rw [if_pos hcmp] at hres
          subst hres
          refine ⟨rfl, fun j hj => ?_, ?_, by simp; omega⟩
          · rcases Nat.lt_succ_iff_lt_or_eq.mp hj with h | h
            · have := hbdom j h
              simp only
              omega
            · subst h
              simp only
              omega
          · have hle := dRun_le s m
            simp only
            omega
        · rw [if_neg hcmp] at hres
          subst hres
          refine ⟨hbd, fun j hj => ?_, hbbnd, le_refl _⟩
          rcases Nat.lt_succ_iff_lt_or_eq.mp hj with h | h
          · exact hbdom j h
          · subst h
            omega
      obtain ⟨hd', hdom', hbnd', hmono'⟩ := hbest' (bestUpd m g best m) rfl
      rw [foldl_bestUpd_noupdate m g R (bestUpd m g best m)
        (fun j hj => le_trans (kval_le_row s g m hrow hpop' j) (hdom' m (by omega)))]
      exact ⟨hd', hdom', hbnd'⟩

/-- Running the scan from row `m` to the end preserves the invariants
down to a final `best` that is diagonal and in range. -/
theorem outerLoop_inv (s : List Char) :
    ∀ (cnt m : ℕ) (g : ℕ → ℕ) (best : ℕ × ℕ × ℕ),
      m + cnt = s.length → JInv s m g → BInv s m best →
      BInv s s.length
        (outerLoop s (mkB2J s) 0 s.length (List.range' m cnt) g best) := by
  intro cnt
  induction cnt with
  | zero =>
    intro m g best hmn hg hb
    rw [show List.range' m 0 = [] from rfl, outerLoop]
    rw [show m = s.length from by omega] at hb
    exact hb
  | succ cnt ih =>
    intro m g best hmn hg hb
    rw [List.range'_succ, outerLoop]
    obtain ⟨hg', hb'⟩ := outer_step s m (by omega) g best hg hb
    exact ih (m + 1) _ _ (by omega) hg' hb'

/-- The backward non-junk extension of a diagonal block (two equal
sequences, junk constantly false) runs all the way to the start. -/
theorem extendBack_diag (s : List Char) :
    ∀ i k, extendBackNonJunk s s (fun _ => false) 0 0 (i, i, k) = (0, 0, i + k) := by
  intro i
  induction i with
  | zero =>
    intro k
    rw [extendBackNonJunk, dif_neg (by omega)]
    exact congrArg (fun t => ((0 : ℕ), (0 : ℕ), t)) (by omega)
  | succ i ih =>
    intro k
    rw [extendBackNonJunk, dif_pos ⟨by omega, by omega, rfl, rfl⟩]
    simp only [Nat.add_sub_cancel]
    rw [ih (k + 1)]
    exact congrArg (fun t => ((0 : ℕ), (0 : ℕ), t)) (by omega)

/-- The forward non-junk extension of a diagonal block starting at 0
runs all the way to the end. -/
theorem extendFwd_diag (s : List Char) :
    ∀ (d k : ℕ), k + d = s.length →
      extendFwdNonJunk s s (fun _ => false) s.length s.length (0, 0, k) = (0, 0, s.length) := by
  intro d
  induction d with
  | zero =>
    intro k hk
    rw [extendFwdNonJunk, dif_neg (by omega)]
    exact congrArg (fun t => ((0 : ℕ), (0 : ℕ), t)) (by omega)
  | succ d ih =>
    intro k hk
    rw [extendFwdNonJunk, dif_pos ⟨by omega, by omega, rfl, rfl⟩]
    exact ih (k + 1) (by omega)

/-- With no junk characters the two junk-extension loops do nothing. -/
theorem extendBackJunk_noop (a b : List Char) (alo blo : ℕ) (p : ℕ × ℕ × ℕ) :
    extendBackJunk a b (fun _ => false) alo blo p = p := by
  rcases p with ⟨i, j, k⟩
  rw [extendBackJunk, dif_neg (by simp)]

/-- With no junk characters the forward junk-extension loop does nothing. -/
theorem extendFwdJunk_noop (a b : List Char) (ahi bhi : ℕ) (p : ℕ × ℕ × ℕ) :
    extendFwdJunk a b (fun _ => false) ahi bhi p = p := by
  rcases p with ⟨i, j, k⟩
  rw [extendFwdJunk, dif_neg (by simp)]

/-- `find_longest_match(0, n, 0, n)` on two copies of `s` returns the
whole-string match. -/
theorem findLongestMatch_self (s : List Char) :
    findLongestMatch s s (mkB2J s) (fun _ => false) 0 s.length 0 s.length
      = (0, 0, s.length) := by
  have hscan := outerLoop_inv s s.length 0 (fun _ => 0) (0, 0, 0) (by omega)
    ⟨fun x => Nat.zero_le _, fun x => by simp, fun h => by omega⟩
    ⟨rfl, fun j hj => by omega, by simp⟩
  rw [findLongestMatch]
  simp only [Nat.sub_zero]
  obtain ⟨hdiag, _, hbound⟩ := hscan
  rcases hres : outerLoop s (mkB2J s) 0 s.length (List.range' 0 s.length)
      (fun _ => 0) (0, 0, 0) with ⟨bi, bj, bk⟩
  rw [hres] at hdiag hbound
  simp only at hdiag hbound
  subst hdiag
  rw [extendBack_diag, extendFwd_diag s (s.length - (bi + bk)) (bi + bk) (by omega),
    extendBackJunk_noop, extendFwdJunk_noop]

/-- The matching-block total of `SequenceMatcher(None, s, s)` is the
whole length. -/
theorem blocksSizeSum_self (s : List Char) (h : s ≠ []) (fuel : ℕ) :
    blocksSizeSum s s (mkB2J s) (fun _ => false) (fuel + 1) 0 s.length 0 s.length
      = s.length := by
  have hn : 0 < s.length := List.length_pos.mpr h
  rw [blocksSizeSum, findLongestMatch_self]
  simp only
  rw [if_neg (by omega)]
  rw [if_neg (by omega), if_neg (by omega)]
  omega

/-! ## Claim C3 -/

/-- C3, amended: the identity half of the claim — the similarity of any
non-empty string with itself is exactly 1.0.  (The symmetry half fails;
see the counterexample.) -/
theorem similarity_self_eq_one (s : List Char) (h : s ≠ []) : pyRatio s s = 1 := by
  have hn : 0 < s.length := List.length_pos.mpr h
  have hm := blocksSizeSum_self s h (s.length + s.length)
  simp only [pyRatio, hm]
  rw [if_neg (by omega)]
  have hcast : ((s.length : ℚ) + (s.length : ℚ)) ≠ 0 := by
    have : (0 : ℚ) < (s.length : ℚ) := by exact_mod_cast hn
    positivity
  field_simp
  ring

/-- C3, witness for the amended claim: a concrete non-empty string. -/
theorem similarity_self_eq_one_witness :
    "x".data ≠ [] ∧ pyRatio "x".data "x".data = 1 :=
  ⟨by decide, similarity_self_eq_one "x".data (by decide)⟩

/-- C3, counterexample: similarity is not symmetric.  For `a = "aba"`,
`b = "babba"` the matcher finds total match size 3 one way (ratio 3/4)
but only 2 the other way (ratio 1/2), because `find_longest_match`
breaks ties towards the block starting earliest in its first argument. -/
theorem similarity_not_symmetric_cex :
    pyRatio "aba".data "babba".data = 3/4 ∧
    pyRatio "babba".data "aba".data = 1/2 ∧
    pyRatio "aba".data "babba".data ≠ pyRatio "babba".data "aba".data := by
  have h1 : pyRatio "aba".data "babba".data = 3/4 := by
    have hsum : blocksSizeSum ['a', 'b', 'a'] ['b', 'a', 'b', 'b', 'a']
        (mkB2J ['b', 'a', 'b', 'b', 'a']) (fun _ => false) 9 0 3 0 5 = 3 := by decide
    simp only [pyRatio]
    norm_num [hsum]
  have h2 : pyRatio "babba".data "aba".data = 1/2 := by
    have hsum : blocksSizeSum ['b', 'a', 'b', 'b', 'a'] ['a', 'b', 'a']
        (mkB2J ['a', 'b', 'a']) (fun _ => false) 9 0 5 0 3 = 2 := by decide
    simp only [pyRatio]
    norm_num [hsum]
  refine ⟨h1, h2, ?_⟩
  rw [h1, h2]
  norm_num
